import Mathlib

/-!
Verification of the parsl high-throughput Interchange event loop
(src/parsl/executors/high_throughput/interchange.py), shallowly embedded
in Lean.  Time instants are modelled as integers, manager identities
(opaque bytes in the source) as strings, and pickled payloads as a small
inductive type of symbolic payloads.
-/

namespace Interchange

/-- A task message received on task_incoming: the code reads
`msg.get('resource_spec', \x7b\x7d).get('priority', float('inf'))` and keeps the
whole message opaque otherwise.  `priority = none` models an absent
priority, i.e. the default `float('inf')` (lowest priority). -/
structure Task where
  task_id : Int
  priority : Option Int
  buffer : String
deriving DecidableEq, Repr

/-- The negated priority key stored in a queue entry: the code stores
`-priority`; `none` here stands for `-inf` (the negation of the default
`float('inf')`). -/
abbrev NegPrio := Option Int

/-- `negOfPrio p` is the first component of the queue entry
`(-priority, -task_counter, msg)`: negation sending the default
`+inf` priority to `-inf`. -/
def negOfPrio : Option Int → NegPrio
  | none => none
  | some v => some (-v)

/-- One entry of `pending_task_queue`: the triple
`(-priority, -self.task_counter, msg)` built in `process_task_incoming`. -/
structure Entry where
  negPrio : NegPrio
  negCounter : Int
  task : Task
deriving DecidableEq, Repr

/-- Strict order on negated priorities (`none` = `-inf`), matching float
comparison of `-priority` values. -/
def negPrioLTb : NegPrio → NegPrio → Bool
  | none, none => false
  | none, some _ => true
  | some _, none => false
  | some a, some b => a < b

/-- Strict comparison of the sort keys `(tup[0], tup[1])` used by the
`SortedList` (lexicographic tuple comparison). -/
def keyLTb (a b : Entry) : Bool :=
  negPrioLTb a.negPrio b.negPrio ||
    (a.negPrio = b.negPrio && a.negCounter < b.negCounter)

/-- Non-strict key comparison, i.e. the order the `SortedList` maintains
ascendingly. -/
def keyLEb (a b : Entry) : Bool :=
  keyLTb a b || (a.negPrio = b.negPrio && a.negCounter = b.negCounter)

/-- `SortedList.add`: insert an entry keeping the list ascending by key
(new entry goes after entries with an equal key, as `bisect_right` does). -/
def slAdd (e : Entry) : List Entry → List Entry
  | [] => [e]
  | x :: xs => if keyLTb e x then e :: x :: xs else x :: slAdd e xs

/-- `SortedList.pop()`: remove and return the greatest (last) entry. -/
def slPop (q : List Entry) : Option (Entry × List Entry) :=
  match q.reverse with
  | [] => none
  | e :: rest => some (e, rest.reverse)

/-- `Interchange.get_tasks(count)`: pop up to `count` greatest entries,
returning their task payloads in pop order together with the remaining
queue.  The source loops `count` times doing
`*_, task = self.pending_task_queue.pop()` and stops on `IndexError`. -/
def getTasksAux : Nat → List Entry → List Task × List Entry
  | 0, q => ([], q)
  | n + 1, q =>
    match slPop q with
    | none => ([], q)
    | some (e, q1) =>
      let r := getTasksAux n q1
      (e.task :: r.1, r.2)

/-- The sequence of whole entries popped by `n` successive
`pending_task_queue.pop()` calls: the dispatch order of the queue at
entry granularity. -/
def drainEntries : Nat → List Entry → List Entry
  | 0, _ => []
  | n + 1, q =>
    match slPop q with
    | none => []
    | some (e, q1) => e :: drainEntries n q1

/-- The `pending_task_queue` plus the `task_counter` that
`process_task_incoming` increments after each enqueue. -/
structure TaskQueue where
  entries : List Entry
  task_counter : Nat
deriving DecidableEq, Repr

def initQueue : TaskQueue := { entries := [], task_counter := 0 }

/-- `process_task_incoming` acting on the queue state: build the entry
`(-priority, -task_counter, msg)`, add it to the sorted list, bump the
counter. -/
def enqueueTask (st : TaskQueue) (msg : Task) : TaskQueue :=
  { entries := slAdd ⟨negOfPrio msg.priority, -(st.task_counter : Int), msg⟩ st.entries,
    task_counter := st.task_counter + 1 }

/-- Enqueue a list of task messages in order. -/
def enqueueAll (st : TaskQueue) (msgs : List Task) : TaskQueue :=
  msgs.foldl enqueueTask st

/-- The entry a task with priority `p` and arrival counter `i` gets in
the queue. -/
def mkEntry (p : Option Int) (i : Nat) (t : Task) : Entry :=
  ⟨negOfPrio p, -(i : Int), t⟩

/-- Strict order on priorities themselves (`none` = the default `+inf`):
`prioLTb a b` says `a` is a strictly smaller (numerically) priority
value than `b`. -/
def prioLTb : Option Int → Option Int → Bool
  | none, _ => false
  | some _, none => true
  | some a, some b => a < b

/-- Manager identity: the router peer identity, opaque bytes in the
source, modelled as a string (command replies decode it to text). -/
abbrev ManagerId := String

/-- `ManagerRecord` (parsl/executors/high_throughput/manager_record.py),
with the fields the interchange reads and writes.  Instants are `Int`. -/
structure ManagerRecord where
  block_id : Option String
  start_time : Int
  tasks : List Int
  worker_count : Nat
  max_capacity : Nat
  active : Bool
  draining : Bool
  last_heartbeat : Int
  idle_since : Option Int
  parsl_version : String
  python_version : String
  hostname : String
  packages : List (String × String)
deriving DecidableEq, Repr

/-- The fields a registration meta message supplies (spec §6 message
schemas); `new_rec.update(meta)` copies them into the fresh record. -/
structure RegMeta where
  python_v : String
  parsl_v : String
  start_time : Int
  block_id : String
  worker_count : Nat
  max_capacity : Nat
  hostname : String
  packages : List (String × String)
deriving DecidableEq, Repr

/-- A sub-message inside a `result`-typed manager message (one pickled
frame after the header). -/
inductive ResultSub where
  | result (task_id : Int) (payload : String)
  | monitoring (payload : String)
  | other (rtype : String)
deriving DecidableEq, Repr

/-- A message arriving on the manager router, after unpickling the meta
frame and dispatching on `meta['type']`. -/
inductive MgrMsg where
  | registration (meta : RegMeta)
  | heartbeat
  | drain
  | result (subs : List ResultSub)
  | unknown (mtype : String)
deriving DecidableEq, Repr

/-- Exceptions the interchange serializes into failure packages.
`managerLost` models `ManagerLost(manager_id, hostname)` (the source
additionally wraps it into a `RemoteExceptionWrapper` before
serializing). -/
inductive Exn where
  | versionMismatch (interchange_version manager_version : String)
  | managerLost (manager_id : ManagerId) (hostname : String)
deriving DecidableEq, Repr

/-- A payload sent to the client on results_outgoing: either a pickled
result-shaped package built by the interchange itself, or a manager
frame forwarded verbatim. -/
inductive ResultOut where
  | pkg (task_id : Int) (exception : Option Exn)
  | forwarded (sub : ResultSub)
deriving DecidableEq, Repr

/-- A payload sent to a manager on the router socket. -/
inductive Payload where
  | pickledNat (n : Nat)
  | taskBatch (ts : List Task)
deriving DecidableEq, Repr

/-- `PKL_HEARTBEAT_CODE = pickle.dumps((2 ** 32) - 1)`. -/
def PKL_HEARTBEAT_CODE : Payload := Payload.pickledNat (2 ^ 32 - 1)

/-- `PKL_DRAINED_CODE = pickle.dumps((2 ** 32) - 2)`. -/
def PKL_DRAINED_CODE : Payload := Payload.pickledNat (2 ^ 32 - 2)

/-- A message sent to the monitoring radio: either the NODE_INFO
snapshot `_send_monitoring_info` builds (record copy, timestamp,
run_id), or a monitoring sub-message payload forwarded verbatim. -/
inductive MonitoringMsg where
  | nodeInfo (rec : ManagerRecord) (timestamp : Int) (run_id : String)
  | forwarded (payload : String)
deriving DecidableEq, Repr

/-- The observable sends of one step: results_outgoing frames, manager
router frames, monitoring radio messages (each in send order within its
channel). -/
structure Effects where
  results : List ResultOut
  mgr_msgs : List (ManagerId × Payload)
  monitoring : List MonitoringMsg
deriving DecidableEq, Repr

def noEff : Effects := ⟨[], [], []⟩

def eApp (a b : Effects) : Effects :=
  ⟨a.results ++ b.results, a.mgr_msgs ++ b.mgr_msgs, a.monitoring ++ b.monitoring⟩

/-- The registry `self._ready_managers` as an association list in
insertion order (python dicts preserve insertion order and have unique
keys). -/
abbrev Registry := List (ManagerId × ManagerRecord)

/-- Dictionary lookup `self._ready_managers.get(mid)`. -/
def rlookup : Registry → ManagerId → Option ManagerRecord
  | [], _ => none
  | p :: rest, mid => if p.1 = mid then some p.2 else rlookup rest mid

/-- In-place mutation of the record stored under `mid`. -/
def rupdate (reg : Registry) (mid : ManagerId) (f : ManagerRecord → ManagerRecord) : Registry :=
  reg.map (fun p => if p.1 = mid then (p.1, f p.2) else p)

/-- `self._ready_managers.pop(mid)`: drop the entry for `mid`. -/
def rerase : Registry → ManagerId → Registry
  | [], _ => []
  | p :: rest, mid => if p.1 = mid then rerase rest mid else p :: rerase rest mid

/-- `self._ready_managers[mid] = rec`: overwrite or append. -/
def rset (reg : Registry) (mid : ManagerId) (rec : ManagerRecord) : Registry :=
  if (rlookup reg mid).isSome then rupdate reg mid (fun _ => rec)
  else reg ++ [(mid, rec)]

/-- `interesting_managers.add mid` (python set add: no duplicates). -/
def sadd (s : List ManagerId) (mid : ManagerId) : List ManagerId :=
  if mid ∈ s then s else mid :: s

/-- `interesting_managers.remove mid` (python set removal). -/
def sremove : List ManagerId → ManagerId → List ManagerId
  | [], _ => []
  | x :: rest, mid => if x = mid then sremove rest mid else x :: sremove rest mid

/-- Split a character list at every dot (like `str.split('.')`). -/
def splitDots : List Char → List (List Char)
  | [] => [[]]
  | c :: rest =>
    match splitDots rest with
    | [] => [[c]]
    | g :: gs => if c = '.' then [] :: g :: gs else (c :: g) :: gs

/-- Rejoin dot-separated components. -/
def joinDots : List (List Char) → List Char
  | [] => []
  | [g] => g
  | g :: h :: t => g ++ '.' :: joinDots (h :: t)

/-- `version.rsplit('.', 1)[0]`: the version string with the component
after the last dot dropped (unchanged when it has no dot). -/
def minorVersion (s : String) : String :=
  let parts := splitDots s.data
  if parts.length ≤ 1 then s else String.mk (joinDots parts.dropLast)

/-- The whole mutable state the event loop mediates, plus the
configuration fields the steps read.  `monitoring = true` models
`monitoring_radio is not None`. -/
structure IXState where
  ix_python_v : String
  ix_parsl_v : String
  heartbeat_threshold : Int
  run_id : String
  worker_port : Nat
  monitoring : Bool
  ready_managers : Registry
  interesting : List ManagerId
  pending : TaskQueue
  connected_block_history : List String
  count : Nat
  kill : Bool
deriving DecidableEq, Repr

/-- `_send_monitoring_info`: emit a NODE_INFO snapshot when the radio
exists. -/
def sendMonitoringInfo (st : IXState) (now : Int) (m : ManagerRecord) : List MonitoringMsg :=
  if st.monitoring then [MonitoringMsg.nodeInfo m now st.run_id] else []

/-- The candidate record a registration builds:
`ManagerRecord(block_id=None, start_time=..., tasks=[], ..., active=True,
draining=False, last_heartbeat=time.time(), idle_since=time.time(), ...)`
followed by `new_rec.update(meta)`, which fills `block_id`,
`worker_count`, `max_capacity`, `hostname` and `packages` from the meta
blob. -/
def newRec (meta : RegMeta) (now : Int) : ManagerRecord :=
  { block_id := some meta.block_id
    start_time := meta.start_time
    tasks := []
    worker_count := meta.worker_count
    max_capacity := meta.max_capacity
    active := true
    draining := false
    last_heartbeat := now
    idle_since := some now
    parsl_version := meta.parsl_v
    python_version := meta.python_v
    hostname := meta.hostname
    packages := meta.packages }

/-- The `VersionMismatch` exception built on a failed registration
version check, with its two interpolated version strings. -/
def vmExn (st : IXState) (meta : RegMeta) : Exn :=
  Exn.versionMismatch
    ("py.v=" ++ minorVersion st.ix_python_v ++ " parsl.v=" ++ st.ix_parsl_v)
    ("py.v=" ++ minorVersion meta.python_v ++ " parsl.v=" ++ meta.parsl_v)

/-- The inner loop of the `result` branch of
`process_manager_socket_message`: walk the sub-messages, removing each
reported `task_id` from the record's task list (collecting the frame for
forwarding when the removal succeeds, swallowing the exception when the
id is absent) and forwarding `monitoring` payloads to the radio.
Returns the updated record, the collected frames (`b_messages_to_send`)
and the forwarded monitoring payloads, each in processing order. -/
def processResultSubs (m : ManagerRecord) :
    List ResultSub → ManagerRecord × List ResultSub × List MonitoringMsg
  | [] => (m, [], [])
  | sub :: rest =>
    match sub with
    | ResultSub.result tid _ =>
      if tid ∈ m.tasks then
        let r := processResultSubs { m with tasks := m.tasks.erase tid } rest
        (r.1, sub :: r.2.1, r.2.2)
      else
        processResultSubs m rest
    | ResultSub.monitoring p =>
      let r := processResultSubs m rest
      (r.1, r.2.1, MonitoringMsg.forwarded p :: r.2.2)
    | ResultSub.other _ => processResultSubs m rest

/-- `process_manager_socket_message`, given the already-unpacked frame
`[manager_id, meta, payload...]` and the current time.  Returns the new
state and the sends the step performed.  The kill flag of the state
models `kill_event`. -/
def processManagerSocketMessage (st : IXState) (mid : ManagerId) (msg : MgrMsg)
    (now : Int) : IXState × Effects :=
  match msg with
  | MgrMsg.registration meta =>
    let new_rec := newRec meta now
    let monEff := sendMonitoringInfo st now new_rec
    if (minorVersion meta.python_v, meta.parsl_v) ≠
        (minorVersion st.ix_python_v, st.ix_parsl_v) then
      ({ st with kill := true },
       ⟨[ResultOut.pkg (-1) (some (vmExn st meta))], [], monEff⟩)
    else
      ({ st with
          ready_managers := rset st.ready_managers mid new_rec
          connected_block_history := st.connected_block_history ++ [meta.block_id]
          interesting := sadd st.interesting mid },
       ⟨[], [], monEff⟩)
  | _ =>
    match rlookup st.ready_managers mid with
    | none => (st, noEff)
    | some m =>
      match msg with
      | MgrMsg.registration _ => (st, noEff)
      | MgrMsg.result subs =>
        let r := processResultSubs m subs
        if r.2.1.isEmpty then
          ({ st with ready_managers := rupdate st.ready_managers mid (fun _ => r.1) },
           ⟨[], [], r.2.2⟩)
        else
          let m2 := if r.1.tasks.isEmpty ∧ r.1.idle_since = none
            then { r.1 with idle_since := some now } else r.1
          ({ st with
              ready_managers := rupdate st.ready_managers mid (fun _ => m2)
              interesting := sadd st.interesting mid },
           ⟨r.2.1.map ResultOut.forwarded, [], r.2.2 ++ sendMonitoringInfo st now m2⟩)
      | MgrMsg.heartbeat =>
        ({ st with ready_managers :=
            rupdate st.ready_managers mid (fun r => { r with last_heartbeat := now }) },
         ⟨[], [(mid, PKL_HEARTBEAT_CODE)], []⟩)
      | MgrMsg.drain =>
        ({ st with ready_managers :=
            rupdate st.ready_managers mid (fun r => { r with draining := true }) },
         noEff)
      | MgrMsg.unknown _ => (st, noEff)

/-- `process_task_incoming` at the state level: enqueue one task
message. -/
def processTaskIncoming (st : IXState) (msg : Task) : IXState :=
  { st with pending := enqueueTask st.pending msg }

/-- `command_req.startswith("HOLD_WORKER")`, as a character-list prefix
test. -/
def strStartsWith (s pre : String) : Bool := pre.data.isPrefixOf s.data

/-- One row of the `MANAGERS` command reply. -/
structure MgrInfo where
  manager : String
  block_id : Option String
  worker_count : Nat
  tasks : Nat
  idle_duration : Int
  active : Bool
  parsl_version : String
  python_version : String
  draining : Bool
deriving DecidableEq, Repr

/-- A command reply sent back with `send_pyobj`. -/
inductive Reply where
  | blocks (l : List String)
  | num (n : Nat)
  | managers (l : List MgrInfo)
  | packages (l : List (String × List (String × String)))
  | nothing
deriving DecidableEq, Repr

/-- `idle_duration = time.time() - idle_since` when `idle_since` is not
null, else `0.0`. -/
def idleDuration (now : Int) : Option Int → Int
  | some t => now - t
  | none => 0

/-- `process_command`: decode one request string, produce the reply, and
perform any state change (only `HOLD_WORKER` mutates).  Returns
(reply, new state, effects). -/
def processCommand (st : IXState) (now : Int) (req : String) :
    Reply × IXState × Effects :=
  if req = "CONNECTED_BLOCKS" then
    (Reply.blocks st.connected_block_history, st, noEff)
  else if req = "WORKERS" then
    (Reply.num (st.ready_managers.foldl (fun acc p => acc + p.2.worker_count) 0), st, noEff)
  else if req = "MANAGERS" then
    (Reply.managers (st.ready_managers.map (fun p =>
      { manager := p.1
        block_id := p.2.block_id
        worker_count := p.2.worker_count
        tasks := p.2.tasks.length
        idle_duration := idleDuration now p.2.idle_since
        active := p.2.active
        parsl_version := p.2.parsl_version
        python_version := p.2.python_version
        draining := p.2.draining })), st, noEff)
  else if req = "MANAGERS_PACKAGES" then
    (Reply.packages (st.ready_managers.map (fun p => (p.1, p.2.packages))), st, noEff)
  else if strStartsWith req "HOLD_WORKER" then
    let mid := (req.splitOn ";").getD 1 ""
    match rlookup st.ready_managers mid with
    | some m =>
      let m1 := { m with active := false }
      (Reply.nothing,
       { st with ready_managers := rupdate st.ready_managers mid (fun _ => m1) },
       ⟨[], [], sendMonitoringInfo st now m1⟩)
    | none => (Reply.nothing, st, noEff)
  else if req = "WORKER_BINDS" then
    (Reply.num st.worker_port, st, noEff)
  else
    (Reply.nothing, st, noEff)

/-- `time.time() - m['last_heartbeat'] > self.heartbeat_threshold`. -/
def badPred (now threshold : Int) (m : ManagerRecord) : Bool :=
  threshold < now - m.last_heartbeat

/-- The failure package `expire_bad_managers` builds for one outstanding
task of a lost manager. -/
def lostPkg (mid : ManagerId) (m : ManagerRecord) (tid : Int) : ResultOut :=
  ResultOut.pkg tid (some (Exn.managerLost mid m.hostname))

/-- The body loop of `expire_bad_managers` over the pre-computed
`bad_managers` list: per bad manager, emit monitoring once if it was
active, emit one failure package per outstanding task id, pop it from
the registry and drop it from the interesting set. -/
def expireBadFold : List (ManagerId × ManagerRecord) → Int → IXState → IXState × Effects
  | [], _, st => (st, noEff)
  | (mid, m) :: rest, now, st =>
    let monEff := if m.active then sendMonitoringInfo st now { m with active := false } else []
    let results := m.tasks.map (lostPkg mid m)
    let st1 := { st with
      ready_managers := rerase st.ready_managers mid
      interesting := sremove st.interesting mid }
    let r := expireBadFold rest now st1
    (r.1, eApp ⟨results, [], monEff⟩ r.2)

/-- `expire_bad_managers`: snapshot the list of managers whose last
heartbeat is older than the threshold, then process each. -/
def expireBadManagers (st : IXState) (now : Int) : IXState × Effects :=
  expireBadFold (st.ready_managers.filter (fun p => badPred now st.heartbeat_threshold p.2)) now st

/-- The loop of `expire_drained_managers` over the snapshot
`list(interesting_managers)`: a draining manager with no outstanding
tasks is sent `PKL_DRAINED_CODE`, removed from the interesting set and
the registry, marked inactive and reported to monitoring.  The source
looks the manager up with an unguarded `self._ready_managers[mid]`; a
failed lookup (impossible while the interesting set stays inside the
registry keys) is modelled as a skip. -/
def expireDrainedFold : List ManagerId → Int → IXState → IXState × Effects
  | [], _, st => (st, noEff)
  | mid :: rest, now, st =>
    match rlookup st.ready_managers mid with
    | none => expireDrainedFold rest now st
    | some m =>
      if m.draining ∧ m.tasks.isEmpty then
        let st1 := { st with
          interesting := sremove st.interesting mid
          ready_managers := rerase st.ready_managers mid }
        let eff : Effects :=
          ⟨[], [(mid, PKL_DRAINED_CODE)],
            sendMonitoringInfo st now { m with active := false }⟩
        let r := expireDrainedFold rest now st1
        (r.1, eApp eff r.2)
      else
        expireDrainedFold rest now st

/-- `expire_drained_managers`. -/
def expireDrainedManagers (st : IXState) (now : Int) : IXState × Effects :=
  expireDrainedFold st.interesting now st

/-- The while loop of `process_tasks_to_send`, already oriented so that
the head of the list is the next manager popped from the selector's
stack (`shuffled_managers.pop()` pops the last element, so the caller
passes the reversed stack).  Eligibility, batch popping, task-list
extension, idle bookkeeping and interesting-set maintenance follow the
source line by line. -/
def dispatchLoop : List ManagerId → Int → IXState → IXState × Effects
  | [], _, st => (st, noEff)
  | mid :: stack, now, st =>
    if st.pending.entries.isEmpty then (st, noEff) else
    match rlookup st.ready_managers mid with
    | none => dispatchLoop stack now st
    | some m =>
      let real_capacity : Int := (m.max_capacity : Int) - m.tasks.length
      if real_capacity ≠ 0 ∧ m.active ∧ ¬m.draining then
        let r := getTasksAux real_capacity.toNat st.pending.entries
        if r.1.isEmpty then
          let st1 := { st with pending := { st.pending with entries := r.2 } }
          let rr := dispatchLoop stack now st1
          (rr.1, eApp ⟨[], [], sendMonitoringInfo st now m⟩ rr.2)
        else
          let tids := r.1.map Task.task_id
          let m1 := { m with tasks := m.tasks ++ tids, idle_since := none }
          let saturated := ¬(0 < real_capacity - r.1.length)
          let st1 := { st with
            pending := { st.pending with entries := r.2 }
            ready_managers := rupdate st.ready_managers mid (fun _ => m1)
            count := st.count + r.1.length
            interesting := if saturated then sremove st.interesting mid else st.interesting }
          let eff : Effects :=
            ⟨[], [(mid, Payload.taskBatch r.1)], sendMonitoringInfo st now m1⟩
          let rr := dispatchLoop stack now st1
          (rr.1, eApp eff rr.2)
      else
        dispatchLoop stack now { st with interesting := sremove st.interesting mid }

/-- `process_tasks_to_send`: when both the interesting set and the task
queue are non-empty, run the dispatch loop over the selector's stack
(`shuffled` is the stack as returned by
`manager_selector.sort_managers`; popping its last element first means
traversing its reverse). -/
def processTasksToSend (st : IXState) (shuffled : List ManagerId) (now : Int) :
    IXState × Effects :=
  if ¬st.interesting.isEmpty ∧ ¬st.pending.entries.isEmpty then
    dispatchLoop shuffled.reverse now st
  else
    (st, noEff)

/-- The entries tasks `ts` get when enqueued consecutively, all at
priority `p`, starting from arrival counter `c`. -/
def entriesOf : List Task → Option Int → Nat → List Entry
  | [], _, _ => []
  | t :: ts, p, c => mkEntry p c t :: entriesOf ts p (c + 1)

/-- A concrete manager record used to instantiate the general theorems
on small closed states. -/
def wRec : ManagerRecord :=
  { block_id := some "b1"
    start_time := 0
    tasks := []
    worker_count := 4
    max_capacity := 10
    active := true
    draining := false
    last_heartbeat := 0
    idle_since := some 0
    parsl_version := "1.0"
    python_version := "3.12.4"
    hostname := "h1"
    packages := [("numpy", "2.0")] }

/-- A concrete interchange state with one registered manager. -/
def wState : IXState :=
  { ix_python_v := "3.12.4"
    ix_parsl_v := "1.0"
    heartbeat_threshold := 30
    run_id := "r"
    worker_port := 9000
    monitoring := true
    ready_managers := [("m1", wRec)]
    interesting := ["m1"]
    pending := enqueueAll initQueue [⟨1, some 0, "x"⟩, ⟨2, some 0, "y"⟩]
    connected_block_history := ["b1"]
    count := 0
    kill := false }

/-- A concrete registration meta blob whose python minor version
("3.11") differs from `wState`'s ("3.12"). -/
def wMeta : RegMeta :=
  { python_v := "3.11.2"
    parsl_v := "1.0"
    start_time := 3
    block_id := "b2"
    worker_count := 4
    max_capacity := 10
    hostname := "h2"
    packages := [] }

/-- A concrete manager record with two outstanding tasks. -/
def wRecBusy : ManagerRecord :=
  { wRec with tasks := [4, 5], idle_since := none }

/-- A concrete state whose single manager has missed its heartbeats by
time 100 (threshold 30, last_heartbeat 0). -/
def wStateBad : IXState :=
  { wState with ready_managers := [("m1", wRecBusy)] }

/-- Capacity safety: every registered manager holds at most
`max_capacity` outstanding task ids. -/
@[reducible] def capInv (reg : Registry) : Prop :=
  ∀ p ∈ reg, p.2.tasks.length ≤ p.2.max_capacity

/-- Idle bookkeeping: `idle_since` is null exactly while the manager has
outstanding tasks. -/
@[reducible] def idleInv (reg : Registry) : Prop :=
  ∀ p ∈ reg, (p.2.idle_since = none ↔ p.2.tasks ≠ [])

/-- The interesting set stays inside the registry keys. -/
@[reducible] def intSub (st : IXState) : Prop :=
  ∀ x ∈ st.interesting, (rlookup st.ready_managers x).isSome = true

theorem getTasksAux_eq (n : Nat) :
    ∀ q, getTasksAux n q = ((q.reverse.take n).map Entry.task, (q.reverse.drop n).reverse) := by
  induction n with
  | zero => intro q; simp [getTasksAux]
  | succ n ih =>
    intro q
    cases hq : q.reverse with
    | nil =>
      have hq0 : q = [] := List.reverse_eq_nil_iff.mp hq
      subst hq0; simp [getTasksAux, slPop]
    | cons e rest =>
      simp only [getTasksAux, slPop, hq]
      rw [ih rest.reverse]
      simp [hq]

theorem drainEntries_eq (n : Nat) :
    ∀ q, drainEntries n q = q.reverse.take n := by
  induction n with
  | zero => intro q; simp [drainEntries]
  | succ n ih =>
    intro q
    cases hq : q.reverse with
    | nil =>
      have hq0 : q = [] := List.reverse_eq_nil_iff.mp hq
      subst hq0; simp [drainEntries, slPop]
    | cons e rest =>
      simp only [drainEntries, slPop, hq]
      rw [ih rest.reverse]
      simp [hq]

/-- `get_tasks` returns exactly the payloads of the popped entries, in
pop order. -/
theorem getTasksAux_fst_eq_drain (n : Nat) (q : List Entry) :
    (getTasksAux n q).1 = (drainEntries n q).map Entry.task := by
  rw [getTasksAux_eq, drainEntries_eq]

/-- Fully draining the queue pops its entries from greatest to
smallest key. -/
theorem drainEntries_full (q : List Entry) :
    drainEntries q.length q = q.reverse := by
  rw [drainEntries_eq]
  have : q.length = q.reverse.length := (List.length_reverse q).symm
  rw [this, List.take_length]

theorem getTasksAux_length_le (n : Nat) (q : List Entry) :
    (getTasksAux n q).1.length ≤ n := by
  rw [getTasksAux_eq]
  simp [List.length_take]

theorem pair_sublist_trichotomy {α : Type} [DecidableEq α] :
    ∀ (l : List α) (a b : α), a ∈ l → b ∈ l →
      a = b ∨ [a, b].Sublist l ∨ [b, a].Sublist l := by
  intro l
  induction l with
  | nil => intro a b ha; simp at ha
  | cons x t ih =>
    intro a b ha hb
    by_cases hax : a = x
    · by_cases hbx : b = x
      · exact Or.inl (hax.trans hbx.symm)
      · have hbt : b ∈ t := by
          rcases hb with _ | hb
          · exact absurd rfl hbx
          · assumption
        refine Or.inr (Or.inl ?_)
        rw [hax]
        exact List.Sublist.cons₂ x (List.singleton_sublist.mpr hbt)
    · by_cases hbx : b = x
      · have hat : a ∈ t := by
          rcases ha with _ | ha
          · exact absurd rfl hax
          · assumption
        refine Or.inr (Or.inr ?_)
        rw [hbx]
        exact List.Sublist.cons₂ x (List.singleton_sublist.mpr hat)
      · have hat : a ∈ t := by
          rcases ha with _ | ha
          · exact absurd rfl hax
          · assumption
        have hbt : b ∈ t := by
          rcases hb with _ | hb
          · exact absurd rfl hbx
          · assumption
        rcases ih a b hat hbt with h | h | h
        · exact Or.inl h
        · exact Or.inr (Or.inl (h.cons x))
        · exact Or.inr (Or.inr (h.cons x))

theorem keyLT_not_LE {a b : Entry} (h1 : keyLTb a b = true) (h2 : keyLEb b a = true) :
    False := by
  cases ha : a.negPrio <;> cases hb : b.negPrio <;>
    simp [keyLTb, keyLEb, negPrioLTb, ha, hb] at h1 h2 <;>
    omega

theorem keyLEb_counter_ne {a b : Entry} (h : keyLEb a b = true)
    (hne : a.negCounter ≠ b.negCounter) : keyLTb a b = true := by
  simp [keyLEb, hne] at h
  exact h

theorem keyLT_mkEntry_iff (pa pb : Option Int) (ia ib : Nat) (ta tb : Task) :
    keyLTb (mkEntry pb ib tb) (mkEntry pa ia ta) = true ↔
      (prioLTb pa pb = true ∨ (pa = pb ∧ ia < ib)) := by
  cases pa <;> cases pb <;>
    simp [mkEntry, keyLTb, negPrioLTb, negOfPrio, prioLTb] <;>
    omega

/-- C1 (amended): in a queue kept ascending by the `SortedList` key
order, task `a` (priority `pa`, arrival `ia`) is popped before task `b`
(priority `pb`, arrival `ib`) iff `pa < pb` (numerically smaller
priority value first — the source comments "higher number = lower
priority"), or `pa = pb` and `ia < ib`. -/
theorem pending_queue_dispatch_order (q : List Entry)
    (hs : List.Pairwise (fun a b => keyLEb a b = true) q)
    (pa pb : Option Int) (ia ib : Nat) (ta tb : Task)
    (ha : mkEntry pa ia ta ∈ q) (hb : mkEntry pb ib tb ∈ q) (hne : ia ≠ ib) :
    List.Sublist [mkEntry pa ia ta, mkEntry pb ib tb] (drainEntries q.length q) ↔
      (prioLTb pa pb = true ∨ (pa = pb ∧ ia < ib)) := by
  rw [drainEntries_full]
  constructor
  · intro h
    have h2 : List.Sublist [mkEntry pb ib tb, mkEntry pa ia ta] q := by
      have h3 := List.sublist_reverse_iff.mp h
      simpa using h3
    have hp := List.Pairwise.sublist h2 hs
    have hle : keyLEb (mkEntry pb ib tb) (mkEntry pa ia ta) = true := by
      rcases hp with _ | ⟨hr, _⟩
      exact hr _ (List.mem_singleton.mpr rfl)
    have hcne : (mkEntry pb ib tb).negCounter ≠ (mkEntry pa ia ta).negCounter := by
      simp [mkEntry]
      omega
    exact (keyLT_mkEntry_iff pa pb ia ib ta tb).mp (keyLEb_counter_ne hle hcne)
  · intro h
    have hlt := (keyLT_mkEntry_iff pa pb ia ib ta tb).mpr h
    rcases pair_sublist_trichotomy q (mkEntry pa ia ta) (mkEntry pb ib tb) ha hb with
      heq | hab | hba
    · exfalso
      have : ia = ib := by
        simp [mkEntry] at heq
        omega
      exact hne this
    · exfalso
      have hp := List.Pairwise.sublist hab hs
      have hle : keyLEb (mkEntry pa ia ta) (mkEntry pb ib tb) = true := by
        rcases hp with _ | ⟨hr, _⟩
        exact hr _ (List.mem_singleton.mpr rfl)
      exact keyLT_not_LE hlt hle
    · rw [List.sublist_reverse_iff]
      simpa using hba

/-- C1 counterexample: the claim as stated ("a before b iff pa > pb, or
pa = pb and ia < ib") is false.  Enqueue task 1 at priority 0 (arrival
0) then task 2 at priority 1 (arrival 1): task 1 is popped first, yet
the claim's right-hand side (`p1 > p0` is false, `p0 = p1` is false)
says it must not be. -/
theorem pending_queue_dispatch_order_cex :
    List.Sublist
      [mkEntry (some 0) 0 ⟨1, some 0, "a"⟩, mkEntry (some 1) 1 ⟨2, some 1, "b"⟩]
      (drainEntries
        (enqueueAll initQueue [⟨1, some 0, "a"⟩, ⟨2, some 1, "b"⟩]).entries.length
        (enqueueAll initQueue [⟨1, some 0, "a"⟩, ⟨2, some 1, "b"⟩]).entries)
    ∧ ¬(prioLTb (some 1) (some 0) = true ∨
        ((some 0 : Option Int) = some 1 ∧ (0 : Nat) < 1)) := by
  decide

/-- Witness for the amended C1 theorem at a concrete two-entry queue. -/
theorem pending_queue_dispatch_order_w :
    List.Sublist
        [mkEntry (some 0) 0 ⟨1, some 0, "a"⟩, mkEntry (some 1) 1 ⟨2, some 1, "b"⟩]
        (drainEntries
          ([mkEntry (some 1) 1 ⟨2, some 1, "b"⟩, mkEntry (some 0) 0 ⟨1, some 0, "a"⟩]).length
          [mkEntry (some 1) 1 ⟨2, some 1, "b"⟩, mkEntry (some 0) 0 ⟨1, some 0, "a"⟩]) ↔
      (prioLTb (some 0) (some 1) = true ∨ ((some 0 : Option Int) = some 1 ∧ 0 < 1)) :=
  pending_queue_dispatch_order
    [mkEntry (some 1) 1 ⟨2, some 1, "b"⟩, mkEntry (some 0) 0 ⟨1, some 0, "a"⟩]
    (by decide) (some 0) (some 1) 0 1 ⟨1, some 0, "a"⟩ ⟨2, some 1, "b"⟩
    (by decide) (by decide) (by decide)

theorem negPrioLTb_irrefl (a : NegPrio) : negPrioLTb a a = false := by
  cases a <;> simp [negPrioLTb]

theorem keyLTb_of_counter_lt {a b : Entry} (h1 : a.negPrio = b.negPrio)
    (h2 : a.negCounter < b.negCounter) : keyLTb a b = true := by
  simp [keyLTb, h1, h2, negPrioLTb_irrefl]

theorem slAdd_front (e : Entry) (es : List Entry)
    (h : ∀ x ∈ es, keyLTb e x = true) : slAdd e es = e :: es := by
  cases es with
  | nil => rfl
  | cons x xs =>
    simp only [slAdd]
    rw [if_pos (h x (by simp))]

theorem entriesOf_map_task : ∀ (msgs : List Task) (p : Option Int) (c : Nat),
    (entriesOf msgs p c).map Entry.task = msgs := by
  intro msgs
  induction msgs with
  | nil => intro p c; rfl
  | cons t ts ih => intro p c; simp [entriesOf, mkEntry, ih]

theorem entriesOf_length : ∀ (msgs : List Task) (p : Option Int) (c : Nat),
    (entriesOf msgs p c).length = msgs.length := by
  intro msgs
  induction msgs with
  | nil => intro p c; rfl
  | cons t ts ih => intro p c; simp [entriesOf, ih]

/-- Enqueueing tasks of one fixed priority always inserts at the front
of the sorted list (each new entry has a strictly smaller key than
everything already present). -/
theorem enqueueAll_const_prio :
    ∀ (msgs : List Task) (p : Option Int) (es : List Entry) (c : Nat),
      (∀ t ∈ msgs, t.priority = p) →
      (∀ e ∈ es, e.negPrio = negOfPrio p ∧ -(c : Int) < e.negCounter) →
      (enqueueAll ⟨es, c⟩ msgs).entries = (entriesOf msgs p c).reverse ++ es := by
  intro msgs
  induction msgs with
  | nil => intro p es c _ _; simp [enqueueAll, entriesOf]
  | cons t ts ih =>
    intro p es c hp hes
    have hpt : t.priority = p := hp t (by simp)
    have hadd : slAdd ⟨negOfPrio t.priority, -(c : Int), t⟩ es =
        ⟨negOfPrio t.priority, -(c : Int), t⟩ :: es := by
      apply slAdd_front
      intro x hx
      exact keyLTb_of_counter_lt (by rw [hpt]; exact (hes x hx).1.symm) (hes x hx).2
    have step : enqueueAll ⟨es, c⟩ (t :: ts) =
        enqueueAll ⟨⟨negOfPrio t.priority, -(c : Int), t⟩ :: es, c + 1⟩ ts := by
      simp [enqueueAll, enqueueTask, hadd]
    rw [step]
    have hrec := ih p (⟨negOfPrio t.priority, -(c : Int), t⟩ :: es) (c + 1)
      (fun x hx => hp x (by simp [hx]))
      (by
        intro e he
        rcases List.mem_cons.mp he with rfl | he2
        · refine ⟨?_, ?_⟩
          · dsimp only
            rw [hpt]
          · dsimp only
            omega
        · refine ⟨(hes e he2).1, ?_⟩
          have h3 := (hes e he2).2
          omega)
    rw [hrec]
    simp [entriesOf, mkEntry, hpt]

/-- C6: enqueue any finite sequence of tasks, all at one priority, and
dispatch to a single registered manager whose capacity covers them all:
the batch sent on the router is exactly the insertion sequence —
equal-priority dispatch is FIFO. -/
theorem equal_priority_fifo (st : IXState) (mid : ManagerId) (m : ManagerRecord)
    (msgs : List Task) (p : Option Int) (now : Int)
    (hready : st.ready_managers = [(mid, m)])
    (hintr : st.interesting = [mid])
    (hpend : st.pending = enqueueAll initQueue msgs)
    (hp : ∀ t ∈ msgs, t.priority = p)
    (hcap : msgs.length ≤ m.max_capacity)
    (htasks : m.tasks = [])
    (hactive : m.active = true)
    (hdrain : m.draining = false)
    (hne : msgs ≠ []) :
    (processTasksToSend st [mid] now).2.mgr_msgs = [(mid, Payload.taskBatch msgs)] := by
  have hent : (enqueueAll initQueue msgs).entries = (entriesOf msgs p 0).reverse := by
    have h0 := enqueueAll_const_prio msgs p [] 0 hp (by intro e he; cases he)
    simpa [initQueue] using h0
  have hlen : (entriesOf msgs p 0).length = msgs.length := entriesOf_length msgs p 0
  have hEntNe : st.pending.entries.isEmpty = false := by
    rw [hpend, hent]
    cases msgs with
    | nil => exact absurd rfl hne
    | cons t ts => simp [entriesOf]
  have hpos : 1 ≤ msgs.length := List.length_pos.mpr hne
  have htoNat : ((m.max_capacity : Int) - ((m.tasks.length : Nat) : Int)).toNat =
      m.max_capacity := by
    rw [htasks]; simp
  have hr1 : (getTasksAux m.max_capacity st.pending.entries).1 = msgs := by
    rw [getTasksAux_eq, hpend, hent]
    rw [List.reverse_reverse]
    rw [List.take_of_length_le (by omega)]
    exact entriesOf_map_task msgs p 0
  have hcapne : ((m.max_capacity : Int) - (m.tasks.length : Int)) ≠ 0 := by
    rw [htasks]; simp; omega
  rw [processTasksToSend,
    if_pos (⟨by simp [hintr], by simp [hEntNe]⟩ :
      ¬st.interesting.isEmpty = true ∧ ¬st.pending.entries.isEmpty = true)]
  have hrev : ([mid] : List ManagerId).reverse = [mid] := by simp
  rw [hrev]
  rw [dispatchLoop]
  rw [if_neg (by simp [hEntNe])]
  have hlook : rlookup st.ready_managers mid = some m := by
    simp [hready, rlookup]
  rw [hlook]
  simp only []
  rw [if_pos (⟨hcapne, by simp [hactive], by simp [hdrain]⟩ :
    ((m.max_capacity : Int) - (m.tasks.length : Int)) ≠ 0 ∧
      m.active = true ∧ ¬m.draining = true)]
  rw [if_neg (by simp [htasks, hr1, hne])]
  simp [dispatchLoop, eApp, noEff, htasks, hr1]

/-- Witness for C6 at a two-task queue. -/
theorem equal_priority_fifo_w :
    (processTasksToSend wState ["m1"] 5).2.mgr_msgs =
      [("m1", Payload.taskBatch [⟨1, some 0, "x"⟩, ⟨2, some 0, "y"⟩])] :=
  equal_priority_fifo wState "m1" wRec [⟨1, some 0, "x"⟩, ⟨2, some 0, "y"⟩]
    (some 0) 5 rfl rfl rfl (by decide) (by decide) rfl rfl rfl (by decide)

/-- C2: a registration message whose framework version or whose python
minor version (version string with the component after the last dot
dropped) differs from the interchange's own sets the kill flag, sends
exactly one synthesized failure package with `task_id = -1` carrying the
version-mismatch exception on results_outgoing, and inserts no record
into the registry. -/
theorem version_mismatch_registration (st : IXState) (mid : ManagerId)
    (meta : RegMeta) (now : Int)
    (h : minorVersion meta.python_v ≠ minorVersion st.ix_python_v ∨
      meta.parsl_v ≠ st.ix_parsl_v) :
    (processManagerSocketMessage st mid (MgrMsg.registration meta) now).1.kill = true ∧
    (processManagerSocketMessage st mid (MgrMsg.registration meta) now).1.ready_managers =
      st.ready_managers ∧
    (processManagerSocketMessage st mid (MgrMsg.registration meta) now).2.results =
      [ResultOut.pkg (-1) (some (vmExn st meta))] := by
  have hne : (minorVersion meta.python_v, meta.parsl_v) ≠
      (minorVersion st.ix_python_v, st.ix_parsl_v) := by
    intro hc
    rw [Prod.ext_iff] at hc
    rcases h with h | h
    · exact h hc.1
    · exact h hc.2
  simp [processManagerSocketMessage, hne]

/-- Witness for C2: a registration with python 3.11 against an
interchange on python 3.12. -/
theorem version_mismatch_registration_w :
    (processManagerSocketMessage wState "m2" (MgrMsg.registration wMeta) 7).1.kill = true ∧
    (processManagerSocketMessage wState "m2" (MgrMsg.registration wMeta) 7).1.ready_managers =
      wState.ready_managers ∧
    (processManagerSocketMessage wState "m2" (MgrMsg.registration wMeta) 7).2.results =
      [ResultOut.pkg (-1) (some (vmExn wState wMeta))] :=
  version_mismatch_registration wState "m2" wMeta 7 (Or.inl (by decide))

/-- C8: a heartbeat from a registered manager updates exactly that
manager's `last_heartbeat` to the current time, sends that manager one
frame whose payload is the constant `pickle.dumps(2 ^ 32 - 1)`, and
changes nothing else (no result frames, no monitoring, no other state
component). -/
theorem heartbeat_reply (st : IXState) (mid : ManagerId) (m : ManagerRecord) (now : Int)
    (h : rlookup st.ready_managers mid = some m) :
    (processManagerSocketMessage st mid MgrMsg.heartbeat now).1 =
      ({ st with
          ready_managers :=
            rupdate st.ready_managers mid (fun r => { r with last_heartbeat := now }) }) ∧
    (processManagerSocketMessage st mid MgrMsg.heartbeat now).2 =
      ⟨[], [(mid, Payload.pickledNat (2 ^ 32 - 1))], []⟩ := by
  simp [processManagerSocketMessage, h, PKL_HEARTBEAT_CODE]

/-- Witness for C8 on the concrete one-manager state. -/
theorem heartbeat_reply_w :
    (processManagerSocketMessage wState "m1" MgrMsg.heartbeat 9).1 =
      ({ wState with
          ready_managers :=
            rupdate wState.ready_managers "m1" (fun r => { r with last_heartbeat := 9 }) }) ∧
    (processManagerSocketMessage wState "m1" MgrMsg.heartbeat 9).2 =
      ⟨[], [("m1", Payload.pickledNat (2 ^ 32 - 1))], []⟩ :=
  heartbeat_reply wState "m1" wRec 9 (by decide)

/-- C10: with monitoring enabled, every registration message — accepted
or rejected by the version check — produces exactly one NODE_INFO
monitoring emission carrying the candidate record, because
`_send_monitoring_info` runs before the version comparison. -/
theorem registration_monitoring_emission (st : IXState) (mid : ManagerId)
    (meta : RegMeta) (now : Int) (h : st.monitoring = true) :
    (processManagerSocketMessage st mid (MgrMsg.registration meta) now).2.monitoring =
      [MonitoringMsg.nodeInfo (newRec meta now) now st.run_id] := by
  simp only [processManagerSocketMessage]
  split <;> simp [sendMonitoringInfo, h]

/-- Witness for C10: the rejected registration of `wMeta` still emits
its NODE_INFO message. -/
theorem registration_monitoring_emission_w :
    (processManagerSocketMessage wState "m2" (MgrMsg.registration wMeta) 7).2.monitoring =
      [MonitoringMsg.nodeInfo (newRec wMeta 7) 7 wState.run_id] :=
  registration_monitoring_emission wState "m2" wMeta 7 rfl

theorem rlookup_mem : ∀ (reg : Registry) (mid : ManagerId) (m : ManagerRecord),
    rlookup reg mid = some m → (mid, m) ∈ reg := by
  intro reg
  induction reg with
  | nil => intro mid m h; simp [rlookup] at h
  | cons p rest ih =>
    intro mid m h
    simp only [rlookup] at h
    by_cases hp : p.1 = mid
    · rw [if_pos hp] at h
      have hm : p.2 = m := Option.some_inj.mp h
      have hpm : p = (mid, m) := by
        obtain ⟨p1, p2⟩ := p
        simp at hp hm
        rw [hp, hm]
      rw [← hpm]
      exact List.mem_cons_self p rest
    · rw [if_neg hp] at h
      exact List.mem_cons_of_mem p (ih mid m h)

theorem rlookup_rupdate_isSome (reg : Registry) (mid : ManagerId)
    (f : ManagerRecord → ManagerRecord) (x : ManagerId) :
    (rlookup (rupdate reg mid f) x).isSome = (rlookup reg x).isSome := by
  induction reg with
  | nil => rfl
  | cons p rest ih =>
    simp only [rupdate, List.map_cons] at ih ⊢
    by_cases hp : p.1 = mid
    · by_cases hx : p.1 = x
      · have hmx : mid = x := by rw [← hp, hx]
        simp [rlookup, hp, hx, hmx]
      · have hmx : ¬mid = x := by rw [← hp]; exact hx
        simp [rlookup, hp, hx, hmx, ih]
    · by_cases hx : p.1 = x
      · have hmx : ¬x = mid := by rw [← hx]; exact hp
        simp [rlookup, hp, hx, hmx]
      · simp [rlookup, hp, hx, ih]

theorem rlookup_rerase (reg : Registry) (mid x : ManagerId) :
    rlookup (rerase reg mid) x = if x = mid then none else rlookup reg x := by
  induction reg with
  | nil => simp [rerase, rlookup]
  | cons p rest ih =>
    simp only [rerase]
    by_cases hp : p.1 = mid
    · rw [if_pos hp, ih]
      by_cases hx : x = mid
      · simp [hx]
      · have : ¬p.1 = x := by rw [hp]; intro hc; exact hx hc.symm
        simp [hx, rlookup, this]
    · rw [if_neg hp]
      simp only [rlookup]
      by_cases hx : p.1 = x
      · have : ¬x = mid := by rw [← hx]; exact hp
        simp [hx, this]
      · rw [if_neg hx, if_neg hx, ih]

theorem mem_rerase : ∀ (reg : Registry) (mid : ManagerId) (p : ManagerId × ManagerRecord),
    p ∈ rerase reg mid → p ∈ reg := by
  intro reg
  induction reg with
  | nil => intro mid p h; simp [rerase] at h
  | cons q rest ih =>
    intro mid p h
    simp only [rerase] at h
    by_cases hq : q.1 = mid
    · rw [if_pos hq] at h
      exact List.mem_cons_of_mem q (ih mid p h)
    · rw [if_neg hq] at h
      rcases List.mem_cons.mp h with rfl | h2
      · simp
      · exact List.mem_cons_of_mem q (ih mid p h2)

theorem pred_rupdate {P : ManagerRecord → Prop} (reg : Registry) (mid : ManagerId)
    (f : ManagerRecord → ManagerRecord)
    (h : ∀ p ∈ reg, P p.2) (hf : ∀ q ∈ reg, q.1 = mid → P (f q.2)) :
    ∀ p ∈ rupdate reg mid f, P p.2 := by
  intro p hp
  simp only [rupdate, List.mem_map] at hp
  obtain ⟨q, hq, hgq⟩ := hp
  by_cases hqm : q.1 = mid
  · rw [if_pos hqm] at hgq
    rw [← hgq]
    exact hf q hq hqm
  · rw [if_neg hqm] at hgq
    rw [← hgq]
    exact h q hq

theorem mem_rset (reg : Registry) (mid : ManagerId) (rec : ManagerRecord)
    (p : ManagerId × ManagerRecord) (h : p ∈ rset reg mid rec) :
    p ∈ reg ∨ p.2 = rec := by
  simp only [rset] at h
  by_cases hs : (rlookup reg mid).isSome
  · rw [if_pos hs] at h
    simp only [rupdate, List.mem_map] at h
    obtain ⟨q, hq, hgq⟩ := h
    by_cases hqm : q.1 = mid
    · rw [if_pos hqm] at hgq
      right
      rw [← hgq]
    · rw [if_neg hqm] at hgq
      left
      rw [← hgq]
      exact hq
  · rw [if_neg hs] at h
    rcases List.mem_append.mp h with h2 | h2
    · exact Or.inl h2
    · right
      rcases List.mem_singleton.mp h2 with rfl
      rfl

theorem rlookup_append_isSome (a b : Registry) (x : ManagerId) :
    (rlookup (a ++ b) x).isSome = ((rlookup a x).isSome || (rlookup b x).isSome) := by
  induction a with
  | nil => simp [rlookup]
  | cons p rest ih =>
    simp only [List.cons_append, rlookup]
    by_cases hp : p.1 = x
    · simp [hp]
    · simp [hp, ih]

theorem rlookup_rset_isSome (reg : Registry) (mid : ManagerId) (rec : ManagerRecord)
    (x : ManagerId) :
    (rlookup (rset reg mid rec) x).isSome = true ↔
      x = mid ∨ (rlookup reg x).isSome = true := by
  simp only [rset]
  by_cases hs : (rlookup reg mid).isSome
  · rw [if_pos hs, rlookup_rupdate_isSome]
    constructor
    · intro h; exact Or.inr h
    · intro h
      rcases h with rfl | h
      · exact hs
      · exact h
  · rw [if_neg hs, rlookup_append_isSome]
    by_cases hx : x = mid
    · subst hx
      simp [rlookup]
    · have : rlookup [(mid, rec)] x = none := by
        simp [rlookup]
        intro hc
        exact absurd hc.symm hx
      simp [this, hx]

theorem mem_sremove : ∀ (s : List ManagerId) (mid x : ManagerId),
    x ∈ sremove s mid → x ∈ s ∧ x ≠ mid := by
  intro s
  induction s with
  | nil => intro mid x h; simp [sremove] at h
  | cons y rest ih =>
    intro mid x h
    simp only [sremove] at h
    by_cases hy : y = mid
    · rw [if_pos hy] at h
      obtain ⟨h1, h2⟩ := ih mid x h
      exact ⟨List.mem_cons_of_mem y h1, h2⟩
    · rw [if_neg hy] at h
      rcases List.mem_cons.mp h with rfl | h2
      · exact ⟨by simp, hy⟩
      · obtain ⟨h1, h3⟩ := ih mid x h2
        exact ⟨List.mem_cons_of_mem y h1, h3⟩

theorem mem_sadd (s : List ManagerId) (mid x : ManagerId) (h : x ∈ sadd s mid) :
    x = mid ∨ x ∈ s := by
  simp only [sadd] at h
  by_cases hm : mid ∈ s
  · rw [if_pos hm] at h
    exact Or.inr h
  · rw [if_neg hm] at h
    rcases List.mem_cons.mp h with rfl | h2
    · exact Or.inl rfl
    · exact Or.inr h2

/-- The result sub-message loop only erases task ids; it does not touch
`idle_since` or `max_capacity`, and an empty collected list means no
removal happened. -/
theorem subs_facts : ∀ (subs : List ResultSub) (m : ManagerRecord),
    (processResultSubs m subs).1.idle_since = m.idle_since ∧
    (processResultSubs m subs).1.max_capacity = m.max_capacity ∧
    List.Sublist (processResultSubs m subs).1.tasks m.tasks ∧
    ((processResultSubs m subs).2.1 = [] → (processResultSubs m subs).1.tasks = m.tasks) := by
  intro subs
  induction subs with
  | nil =>
    intro m
    exact ⟨rfl, rfl, List.Sublist.refl _, fun _ => rfl⟩
  | cons sub rest ih =>
    intro m
    cases sub with
    | result tid pl =>
      by_cases ht : tid ∈ m.tasks
      · have ihm := ih { m with tasks := m.tasks.erase tid }
        simp only [processResultSubs, if_pos ht]
        refine ⟨ihm.1, ihm.2.1, ihm.2.2.1.trans (List.erase_sublist tid m.tasks), ?_⟩
        intro hc
        exact absurd hc (List.cons_ne_nil _ _)
      · simp only [processResultSubs, if_neg ht]
        exact ih m
    | monitoring pl =>
      have ihm := ih m
      simp only [processResultSubs]
      exact ⟨ihm.1, ihm.2.1, ihm.2.2.1, ihm.2.2.2⟩
    | other r =>
      simp only [processResultSubs]
      exact ih m

theorem processCommand_interesting (st : IXState) (now : Int) (req : String) :
    (processCommand st now req).2.1.interesting = st.interesting := by
  simp only [processCommand]
  split_ifs <;> first | rfl | (split <;> rfl)

theorem processCommand_lookup (st : IXState) (now : Int) (req : String) (x : ManagerId) :
    (rlookup (processCommand st now req).2.1.ready_managers x).isSome =
      (rlookup st.ready_managers x).isSome := by
  simp only [processCommand]
  split_ifs <;> first | rfl | (split <;> simp [rlookup_rupdate_isSome])

theorem processCommand_pred {P : ManagerRecord → Prop} (st : IXState) (now : Int)
    (req : String) (hP : ∀ v, P v → P { v with active := false })
    (h : ∀ p ∈ st.ready_managers, P p.2) :
    ∀ p ∈ (processCommand st now req).2.1.ready_managers, P p.2 := by
  simp only [processCommand]
  split_ifs with h1 h2 h3 h4 h5 h6
  · exact h
  · exact h
  · exact h
  · exact h
  · split
    · rename_i m hl
      exact pred_rupdate st.ready_managers ((req.splitOn ";").getD 1 "")
        (fun _ => { m with active := false }) h
        (fun q hq hqm => hP m (h _ (rlookup_mem _ _ _ hl)))
    · exact h
  · exact h
  · exact h

theorem pmsm_capInv (st : IXState) (mid : ManagerId) (msg : MgrMsg) (now : Int)
    (h : capInv st.ready_managers) :
    capInv (processManagerSocketMessage st mid msg now).1.ready_managers := by
  cases msg with
  | registration meta =>
    simp only [processManagerSocketMessage]
    split_ifs with hv
    · exact h
    · intro p hp
      rcases mem_rset _ _ _ p hp with h2 | h2
      · exact h p h2
      · rw [h2]
        simp [newRec]
  | heartbeat =>
    simp only [processManagerSocketMessage]
    rcases hl : rlookup st.ready_managers mid with _ | m <;> simp only [hl]
    · exact h
    · exact @pred_rupdate (fun v => v.tasks.length ≤ v.max_capacity) _ _ _ h (fun q hq hqm => h q hq)
  | drain =>
    simp only [processManagerSocketMessage]
    rcases hl : rlookup st.ready_managers mid with _ | m <;> simp only [hl]
    · exact h
    · exact @pred_rupdate (fun v => v.tasks.length ≤ v.max_capacity) _ _ _ h (fun q hq hqm => h q hq)
  | result subs =>
    simp only [processManagerSocketMessage]
    rcases hl : rlookup st.ready_managers mid with _ | m <;> simp only [hl]
    · exact h
    · have hm : (mid, m) ∈ st.ready_managers := rlookup_mem _ _ _ hl
      have hf := subs_facts subs m
      have hP1 : (processResultSubs m subs).1.tasks.length ≤
          (processResultSubs m subs).1.max_capacity := by
        rw [hf.2.1]
        exact le_trans (List.Sublist.length_le hf.2.2.1) (h _ hm)
      split_ifs with hc hc2
      · show capInv (rupdate st.ready_managers mid (fun _ => (processResultSubs m subs).1))
        exact @pred_rupdate (fun v => v.tasks.length ≤ v.max_capacity) _ _ _ h
          (fun q hq hqm => hP1)
      · show capInv (rupdate st.ready_managers mid
          (fun _ => { (processResultSubs m subs).1 with idle_since := some now }))
        exact @pred_rupdate (fun v => v.tasks.length ≤ v.max_capacity) _ _ _ h
          (fun q hq hqm => hP1)
      · show capInv (rupdate st.ready_managers mid (fun _ => (processResultSubs m subs).1))
        exact @pred_rupdate (fun v => v.tasks.length ≤ v.max_capacity) _ _ _ h
          (fun q hq hqm => hP1)
  | unknown s =>
    simp only [processManagerSocketMessage]
    rcases hl : rlookup st.ready_managers mid with _ | m <;> simp only [hl]
    · exact h
    · exact h

theorem pmsm_idleInv (st : IXState) (mid : ManagerId) (msg : MgrMsg) (now : Int)
    (h : idleInv st.ready_managers) :
    idleInv (processManagerSocketMessage st mid msg now).1.ready_managers := by
  cases msg with
  | registration meta =>
    simp only [processManagerSocketMessage]
    split_ifs with hv
    · exact h
    · intro p hp
      rcases mem_rset _ _ _ p hp with h2 | h2
      · exact h p h2
      · rw [h2]
        simp [newRec]
  | heartbeat =>
    simp only [processManagerSocketMessage]
    rcases hl : rlookup st.ready_managers mid with _ | m <;> simp only [hl]
    · exact h
    · exact @pred_rupdate (fun v => v.idle_since = none ↔ v.tasks ≠ []) _ _ _ h (fun q hq hqm => h q hq)
  | drain =>
    simp only [processManagerSocketMessage]
    rcases hl : rlookup st.ready_managers mid with _ | m <;> simp only [hl]
    · exact h
    · exact @pred_rupdate (fun v => v.idle_since = none ↔ v.tasks ≠ []) _ _ _ h (fun q hq hqm => h q hq)
  | result subs =>
    simp only [processManagerSocketMessage]
    rcases hl : rlookup st.ready_managers mid with _ | m <;> simp only [hl]
    · exact h
    · have hm : (mid, m) ∈ st.ready_managers := rlookup_mem _ _ _ hl
      have hf := subs_facts subs m
      have h1 := h _ hm
      split_ifs with hc hc2
      · show idleInv (rupdate st.ready_managers mid (fun _ => (processResultSubs m subs).1))
        refine @pred_rupdate (fun v => v.idle_since = none ↔ v.tasks ≠ []) _ _ _ h
          (fun q hq hqm => ?_)
        have hcoll : (processResultSubs m subs).2.1 = [] := List.isEmpty_iff.mp hc
        have ht : (processResultSubs m subs).1.tasks = m.tasks := hf.2.2.2 hcoll
        show (processResultSubs m subs).1.idle_since = none ↔
          (processResultSubs m subs).1.tasks ≠ []
        rw [hf.1, ht]
        exact h1
      · show idleInv (rupdate st.ready_managers mid
          (fun _ => { (processResultSubs m subs).1 with idle_since := some now }))
        refine @pred_rupdate (fun v => v.idle_since = none ↔ v.tasks ≠ []) _ _ _ h
          (fun q hq hqm => ?_)
        have ht : (processResultSubs m subs).1.tasks = [] := List.isEmpty_iff.mp hc2.1
        show (some now = none) ↔ (processResultSubs m subs).1.tasks ≠ []
        rw [ht]
        simp
      · show idleInv (rupdate st.ready_managers mid (fun _ => (processResultSubs m subs).1))
        refine @pred_rupdate (fun v => v.idle_since = none ↔ v.tasks ≠ []) _ _ _ h
          (fun q hq hqm => ?_)
        show (processResultSubs m subs).1.idle_since = none ↔
          (processResultSubs m subs).1.tasks ≠ []
        by_cases hte : (processResultSubs m subs).1.tasks = []
        · have hidle : ¬(processResultSubs m subs).1.idle_since = none := by
            intro hcon
            exact hc2 ⟨List.isEmpty_iff.mpr hte, hcon⟩
          rw [hte]
          simp [hidle]
        · have hmt : m.tasks ≠ [] := by
            intro hcon
            exact hte (List.sublist_nil.mp (hcon ▸ hf.2.2.1))
          have hidle : m.idle_since = none := h1.mpr hmt
          rw [hf.1]
          simp [hte, hidle]
  | unknown s =>
    simp only [processManagerSocketMessage]
    rcases hl : rlookup st.ready_managers mid with _ | m <;> simp only [hl]
    · exact h
    · exact h

theorem pmsm_intSub (st : IXState) (mid : ManagerId) (msg : MgrMsg) (now : Int)
    (h : intSub st) :
    intSub (processManagerSocketMessage st mid msg now).1 := by
  cases msg with
  | registration meta =>
    simp only [processManagerSocketMessage]
    split_ifs with hv
    · exact h
    · intro x hx
      rcases mem_sadd _ _ _ hx with rfl | hx2
      · exact (rlookup_rset_isSome _ _ _ _).mpr (Or.inl rfl)
      · exact (rlookup_rset_isSome _ _ _ _).mpr (Or.inr (h x hx2))
  | heartbeat =>
    simp only [processManagerSocketMessage]
    rcases hl : rlookup st.ready_managers mid with _ | m <;> simp only [hl]
    · exact h
    · intro x hx
      rw [rlookup_rupdate_isSome]
      exact h x hx
  | drain =>
    simp only [processManagerSocketMessage]
    rcases hl : rlookup st.ready_managers mid with _ | m <;> simp only [hl]
    · exact h
    · intro x hx
      rw [rlookup_rupdate_isSome]
      exact h x hx
  | result subs =>
    simp only [processManagerSocketMessage]
    rcases hl : rlookup st.ready_managers mid with _ | m <;> simp only [hl]
    · exact h
    · split_ifs with hc hc2
      · intro x hx
        rw [rlookup_rupdate_isSome]
        exact h x hx
      · intro x hx
        rw [rlookup_rupdate_isSome]
        rcases mem_sadd _ _ _ hx with rfl | hx2
        · rw [hl]; rfl
        · exact h x hx2
      · intro x hx
        rw [rlookup_rupdate_isSome]
        rcases mem_sadd _ _ _ hx with rfl | hx2
        · rw [hl]; rfl
        · exact h x hx2
  | unknown s =>
    simp only [processManagerSocketMessage]
    rcases hl : rlookup st.ready_managers mid with _ | m <;> simp only [hl]
    · exact h
    · exact h

theorem expireBadFold_ready_sub :
    ∀ (bad : List (ManagerId × ManagerRecord)) (now : Int) (st : IXState)
      (p : ManagerId × ManagerRecord),
      p ∈ (expireBadFold bad now st).1.ready_managers → p ∈ st.ready_managers := by
  intro bad
  induction bad with
  | nil => intro now st p hp; exact hp
  | cons b rest ih =>
    intro now st p hp
    obtain ⟨mid, m⟩ := b
    simp only [expireBadFold] at hp
    exact mem_rerase _ _ _ (ih now _ p hp)

theorem expireBadFold_intSub :
    ∀ (bad : List (ManagerId × ManagerRecord)) (now : Int) (st : IXState),
      intSub st → intSub (expireBadFold bad now st).1 := by
  intro bad
  induction bad with
  | nil => intro now st h; exact h
  | cons b rest ih =>
    intro now st h
    obtain ⟨mid, m⟩ := b
    simp only [expireBadFold]
    refine ih now _ ?_
    intro x hx
    obtain ⟨hx1, hx2⟩ := mem_sremove _ _ _ hx
    show (rlookup (rerase st.ready_managers mid) x).isSome = true
    rw [rlookup_rerase, if_neg hx2]
    exact h x hx1

theorem expireBadFold_not_interesting :
    ∀ (bad : List (ManagerId × ManagerRecord)) (now : Int) (st : IXState) (x : ManagerId),
      x ∉ st.interesting → x ∉ (expireBadFold bad now st).1.interesting := by
  intro bad
  induction bad with
  | nil => intro now st x h; exact h
  | cons b rest ih =>
    intro now st x h
    obtain ⟨mid, m⟩ := b
    simp only [expireBadFold]
    refine ih now _ x ?_
    intro hx
    exact h (mem_sremove _ _ _ hx).1

theorem expireBadFold_lookup_none :
    ∀ (bad : List (ManagerId × ManagerRecord)) (now : Int) (st : IXState) (x : ManagerId),
      rlookup st.ready_managers x = none →
      rlookup (expireBadFold bad now st).1.ready_managers x = none := by
  intro bad
  induction bad with
  | nil => intro now st x h; exact h
  | cons b rest ih =>
    intro now st x h
    obtain ⟨mid, m⟩ := b
    simp only [expireBadFold]
    refine ih now _ x ?_
    show rlookup (rerase st.ready_managers mid) x = none
    rw [rlookup_rerase]
    by_cases hx : x = mid
    · rw [if_pos hx]
    · rw [if_neg hx]
      exact h

theorem expireBadFold_results :
    ∀ (bad : List (ManagerId × ManagerRecord)) (now : Int) (st : IXState),
      (expireBadFold bad now st).2.results =
        bad.flatMap (fun p => p.2.tasks.map (lostPkg p.1 p.2)) := by
  intro bad
  induction bad with
  | nil => intro now st; rfl
  | cons b rest ih =>
    intro now st
    obtain ⟨mid, m⟩ := b
    simp only [expireBadFold, eApp, List.flatMap_cons]
    rw [ih]

theorem expireBadFold_removes :
    ∀ (bad : List (ManagerId × ManagerRecord)) (now : Int) (st : IXState) (x : ManagerId),
      x ∈ bad.map Prod.fst →
      rlookup (expireBadFold bad now st).1.ready_managers x = none ∧
        x ∉ (expireBadFold bad now st).1.interesting := by
  intro bad
  induction bad with
  | nil => intro now st x h; simp at h
  | cons b rest ih =>
    intro now st x h
    obtain ⟨mid, m⟩ := b
    by_cases hx : x = mid
    · subst hx
      simp only [expireBadFold]
      constructor
      · refine expireBadFold_lookup_none rest now _ x ?_
        show rlookup (rerase st.ready_managers x) x = none
        rw [rlookup_rerase, if_pos rfl]
      · refine expireBadFold_not_interesting rest now _ x ?_
        intro hc
        exact (mem_sremove _ _ _ hc).2 rfl
    · have hrest : x ∈ rest.map Prod.fst := by
        rcases List.mem_map.mp h with ⟨q, hq, hqx⟩
        rcases List.mem_cons.mp hq with rfl | hq2
        · exact absurd hqx.symm hx
        · exact List.mem_map.mpr ⟨q, hq2, hqx⟩
      simp only [expireBadFold]
      exact ih now _ x hrest

theorem expireDrainedFold_ready_sub :
    ∀ (l : List ManagerId) (now : Int) (st : IXState) (p : ManagerId × ManagerRecord),
      p ∈ (expireDrainedFold l now st).1.ready_managers → p ∈ st.ready_managers := by
  intro l
  induction l with
  | nil => intro now st p hp; exact hp
  | cons mid rest ih =>
    intro now st p hp
    simp only [expireDrainedFold] at hp
    rcases hl : rlookup st.ready_managers mid with _ | m
    · simp only [hl] at hp
      exact ih now st p hp
    · simp only [hl] at hp
      by_cases hd : m.draining = true ∧ m.tasks.isEmpty = true
      · rw [if_pos hd] at hp
        exact mem_rerase _ _ _ (ih now _ p hp)
      · rw [if_neg hd] at hp
        exact ih now st p hp

theorem expireDrainedFold_intSub :
    ∀ (l : List ManagerId) (now : Int) (st : IXState),
      intSub st → intSub (expireDrainedFold l now st).1 := by
  intro l
  induction l with
  | nil => intro now st h; exact h
  | cons mid rest ih =>
    intro now st h
    simp only [expireDrainedFold]
    rcases hl : rlookup st.ready_managers mid with _ | m
    · simp only [hl]
      exact ih now st h
    · simp only [hl]
      by_cases hd : m.draining = true ∧ m.tasks.isEmpty = true
      · rw [if_pos hd]
        refine ih now _ ?_
        intro x hx
        obtain ⟨hx1, hx2⟩ := mem_sremove _ _ _ hx
        show (rlookup (rerase st.ready_managers mid) x).isSome = true
        rw [rlookup_rerase, if_neg hx2]
        exact h x hx1
      · rw [if_neg hd]
        exact ih now st h

theorem dispatchLoop_capInv :
    ∀ (stack : List ManagerId) (now : Int) (st : IXState),
      capInv st.ready_managers → capInv (dispatchLoop stack now st).1.ready_managers := by
  intro stack
  induction stack with
  | nil => intro now st h; exact h
  | cons mid rest ih =>
    intro now st h
    simp only [dispatchLoop]
    rcases hl : rlookup st.ready_managers mid with _ | m
    · simp only [hl]
      split_ifs
      · exact h
      · exact ih now st h
    · simp only [hl]
      have hmm : m.tasks.length ≤ m.max_capacity := h _ (rlookup_mem _ _ _ hl)
      have hlen := getTasksAux_length_le
        ((m.max_capacity : Int) - m.tasks.length).toNat st.pending.entries
      split_ifs with hpe hcond hbe hsat
      · exact h
      · dsimp only
        exact ih now _ h
      · dsimp only
        refine ih now _ ?_
        dsimp only
        refine @pred_rupdate (fun v => v.tasks.length ≤ v.max_capacity) _ _ _ h
          (fun q hq hqm => ?_)
        show (m.tasks ++ (getTasksAux ((m.max_capacity : Int) - m.tasks.length).toNat
            st.pending.entries).1.map Task.task_id).length ≤ m.max_capacity
        rw [List.length_append, List.length_map]
        omega
      · dsimp only
        refine ih now _ ?_
        dsimp only
        refine @pred_rupdate (fun v => v.tasks.length ≤ v.max_capacity) _ _ _ h
          (fun q hq hqm => ?_)
        show (m.tasks ++ (getTasksAux ((m.max_capacity : Int) - m.tasks.length).toNat
            st.pending.entries).1.map Task.task_id).length ≤ m.max_capacity
        rw [List.length_append, List.length_map]
        omega
      · exact ih now _ h

theorem dispatchLoop_idleInv :
    ∀ (stack : List ManagerId) (now : Int) (st : IXState),
      idleInv st.ready_managers → idleInv (dispatchLoop stack now st).1.ready_managers := by
  intro stack
  induction stack with
  | nil => intro now st h; exact h
  | cons mid rest ih =>
    intro now st h
    simp only [dispatchLoop]
    rcases hl : rlookup st.ready_managers mid with _ | m
    · simp only [hl]
      split_ifs
      · exact h
      · exact ih now st h
    · simp only [hl]
      split_ifs with hpe hcond hbe hsat
      · exact h
      · dsimp only
        exact ih now _ h
      · dsimp only
        refine ih now _ ?_
        dsimp only
        refine @pred_rupdate (fun v => v.idle_since = none ↔ v.tasks ≠ []) _ _ _ h
          (fun q hq hqm => ?_)
        show ((none : Option Int) = none) ↔
          (m.tasks ++ (getTasksAux ((m.max_capacity : Int) - m.tasks.length).toNat
            st.pending.entries).1.map Task.task_id) ≠ []
        have hne : (getTasksAux ((m.max_capacity : Int) - m.tasks.length).toNat
            st.pending.entries).1 ≠ [] := by
          intro hc
          rw [hc] at hbe
          exact hbe rfl
        have happ : m.tasks ++ (getTasksAux ((m.max_capacity : Int) - m.tasks.length).toNat
            st.pending.entries).1.map Task.task_id ≠ [] := by
          intro hc
          exact hne (List.map_eq_nil.mp (List.append_eq_nil.mp hc).2)
        simp only [happ, ne_eq, not_false_eq_true, iff_true]
      · dsimp only
        refine ih now _ ?_
        dsimp only
        refine @pred_rupdate (fun v => v.idle_since = none ↔ v.tasks ≠ []) _ _ _ h
          (fun q hq hqm => ?_)
        show ((none : Option Int) = none) ↔
          (m.tasks ++ (getTasksAux ((m.max_capacity : Int) - m.tasks.length).toNat
            st.pending.entries).1.map Task.task_id) ≠ []
        have hne : (getTasksAux ((m.max_capacity : Int) - m.tasks.length).toNat
            st.pending.entries).1 ≠ [] := by
          intro hc
          rw [hc] at hbe
          exact hbe rfl
        have happ : m.tasks ++ (getTasksAux ((m.max_capacity : Int) - m.tasks.length).toNat
            st.pending.entries).1.map Task.task_id ≠ [] := by
          intro hc
          exact hne (List.map_eq_nil.mp (List.append_eq_nil.mp hc).2)
        simp only [happ, ne_eq, not_false_eq_true, iff_true]
      · exact ih now _ h

theorem dispatchLoop_intSub :
    ∀ (stack : List ManagerId) (now : Int) (st : IXState),
      intSub st → intSub (dispatchLoop stack now st).1 := by
  intro stack
  induction stack with
  | nil => intro now st h; exact h
  | cons mid rest ih =>
    intro now st h
    simp only [dispatchLoop]
    rcases hl : rlookup st.ready_managers mid with _ | m
    · simp only [hl]
      split_ifs
      · exact h
      · exact ih now st h
    · simp only [hl]
      split_ifs with hpe hcond hbe hsat
      · exact h
      · dsimp only
        exact ih now _ h
      · dsimp only
        refine ih now _ ?_
        intro x hx
        dsimp only at hx ⊢
        rw [rlookup_rupdate_isSome]
        exact h x hx
      · dsimp only
        refine ih now _ ?_
        intro x hx
        dsimp only at hx ⊢
        rw [rlookup_rupdate_isSome]
        exact h x (mem_sremove _ _ _ hx).1
      · refine ih now _ ?_
        intro x hx
        exact h x (mem_sremove _ _ _ hx).1

/-- C3: capacity safety.  If every registered manager has at most
`max_capacity` outstanding task ids, the same holds after each of the
six loop steps — in particular after the dispatch step, whatever
stack the manager selector produced. -/
theorem capacity_safety (st : IXState) (now : Int) (req : String) (t : Task)
    (mid : ManagerId) (msg : MgrMsg) (shuffled : List ManagerId)
    (h : capInv st.ready_managers) :
    capInv (processCommand st now req).2.1.ready_managers ∧
    capInv (processTaskIncoming st t).ready_managers ∧
    capInv (processManagerSocketMessage st mid msg now).1.ready_managers ∧
    capInv (expireBadManagers st now).1.ready_managers ∧
    capInv (expireDrainedManagers st now).1.ready_managers ∧
    capInv (processTasksToSend st shuffled now).1.ready_managers := by
  refine ⟨?_, ?_, ?_, ?_, ?_, ?_⟩
  · exact @processCommand_pred (fun v => v.tasks.length ≤ v.max_capacity)
      st now req (fun v hv => hv) h
  · exact h
  · exact pmsm_capInv st mid msg now h
  · intro p hp
    exact h p (expireBadFold_ready_sub _ now st p hp)
  · intro p hp
    exact h p (expireDrainedFold_ready_sub _ now st p hp)
  · simp only [processTasksToSend]
    split_ifs with hc
    · exact dispatchLoop_capInv _ now st h
    · exact h

/-- Witness for C3 on the concrete one-manager state. -/
theorem capacity_safety_w :
    capInv (processCommand wState 3 "WORKERS").2.1.ready_managers ∧
    capInv (processTaskIncoming wState ⟨7, none, "t"⟩).ready_managers ∧
    capInv (processManagerSocketMessage wState "m1" MgrMsg.heartbeat 3).1.ready_managers ∧
    capInv (expireBadManagers wState 3).1.ready_managers ∧
    capInv (expireDrainedManagers wState 3).1.ready_managers ∧
    capInv (processTasksToSend wState ["m1"] 3).1.ready_managers :=
  capacity_safety wState 3 "WORKERS" ⟨7, none, "t"⟩ "m1" MgrMsg.heartbeat ["m1"]
    (by decide)

/-- C4: idle bookkeeping.  If `idle_since` is null exactly for managers
with outstanding tasks, the same holds after each of the six loop
steps; dispatch of a non-empty batch nulls `idle_since` and a result
batch that empties the task list stamps it with the current time. -/
theorem idle_bookkeeping (st : IXState) (now : Int) (req : String) (t : Task)
    (mid : ManagerId) (msg : MgrMsg) (shuffled : List ManagerId)
    (h : idleInv st.ready_managers) :
    idleInv (processCommand st now req).2.1.ready_managers ∧
    idleInv (processTaskIncoming st t).ready_managers ∧
    idleInv (processManagerSocketMessage st mid msg now).1.ready_managers ∧
    idleInv (expireBadManagers st now).1.ready_managers ∧
    idleInv (expireDrainedManagers st now).1.ready_managers ∧
    idleInv (processTasksToSend st shuffled now).1.ready_managers := by
  refine ⟨?_, ?_, ?_, ?_, ?_, ?_⟩
  · exact @processCommand_pred (fun v => v.idle_since = none ↔ v.tasks ≠ [])
      st now req (fun v hv => hv) h
  · exact h
  · exact pmsm_idleInv st mid msg now h
  · intro p hp
    exact h p (expireBadFold_ready_sub _ now st p hp)
  · intro p hp
    exact h p (expireDrainedFold_ready_sub _ now st p hp)
  · simp only [processTasksToSend]
    split_ifs with hc
    · exact dispatchLoop_idleInv _ now st h
    · exact h

/-- Witness for C4 on the concrete one-manager state. -/
theorem idle_bookkeeping_w :
    idleInv (processCommand wState 3 "WORKERS").2.1.ready_managers ∧
    idleInv (processTaskIncoming wState ⟨7, none, "t"⟩).ready_managers ∧
    idleInv (processManagerSocketMessage wState "m1" MgrMsg.heartbeat 3).1.ready_managers ∧
    idleInv (expireBadManagers wState 3).1.ready_managers ∧
    idleInv (expireDrainedManagers wState 3).1.ready_managers ∧
    idleInv (processTasksToSend wState ["m1"] 3).1.ready_managers :=
  idle_bookkeeping wState 3 "WORKERS" ⟨7, none, "t"⟩ "m1" MgrMsg.heartbeat ["m1"]
    (by decide)

/-- C7: the interesting set stays inside the registry keys across every
loop step (command handling, task intake, any manager message —
registration and result handling included — bad-manager expiry,
drained-manager expiry, dispatch); consequently the unguarded registry
lookup of the drained-expiry step always finds its manager. -/
theorem interesting_subset (st : IXState) (now : Int) (req : String) (t : Task)
    (mid : ManagerId) (msg : MgrMsg) (shuffled : List ManagerId)
    (h : intSub st) :
    intSub (processCommand st now req).2.1 ∧
    intSub (processTaskIncoming st t) ∧
    intSub (processManagerSocketMessage st mid msg now).1 ∧
    intSub (expireBadManagers st now).1 ∧
    intSub (expireDrainedManagers st now).1 ∧
    intSub (processTasksToSend st shuffled now).1 ∧
    (∀ x ∈ st.interesting, (rlookup st.ready_managers x).isSome = true) := by
  refine ⟨?_, ?_, ?_, ?_, ?_, ?_, h⟩
  · intro x hx
    rw [processCommand_interesting] at hx
    rw [processCommand_lookup]
    exact h x hx
  · exact h
  · exact pmsm_intSub st mid msg now h
  · exact expireBadFold_intSub _ now st h
  · exact expireDrainedFold_intSub _ now st h
  · simp only [processTasksToSend]
    split_ifs with hc
    · exact dispatchLoop_intSub _ now st h
    · exact h

/-- Witness for C7 on the concrete one-manager state. -/
theorem interesting_subset_w :
    intSub (processCommand wState 3 "WORKERS").2.1 ∧
    intSub (processTaskIncoming wState ⟨7, none, "t"⟩) ∧
    intSub (processManagerSocketMessage wState "m1" MgrMsg.heartbeat 3).1 ∧
    intSub (expireBadManagers wState 3).1 ∧
    intSub (expireDrainedManagers wState 3).1 ∧
    intSub (processTasksToSend wState ["m1"] 3).1 ∧
    (∀ x ∈ wState.interesting, (rlookup wState.ready_managers x).isSome = true) :=
  interesting_subset wState 3 "WORKERS" ⟨7, none, "t"⟩ "m1" MgrMsg.heartbeat ["m1"]
    (by decide)

/-- C5: for every registered manager whose last heartbeat is older than
the threshold, the expiry step emits one failure package per
outstanding task id — each carrying that task id and
`ManagerLost(manager_id, hostname)` — and removes the manager from the
registry and from the interesting set.  The whole batch sent on
results_outgoing is exactly the concatenation over the snapshot of bad
managers. -/
theorem bad_manager_expiry (st : IXState) (now : Int) (mid : ManagerId)
    (m : ManagerRecord)
    (h1 : (mid, m) ∈ st.ready_managers)
    (h2 : badPred now st.heartbeat_threshold m = true) :
    (expireBadManagers st now).2.results =
      (st.ready_managers.filter (fun p => badPred now st.heartbeat_threshold p.2)).flatMap
        (fun p => p.2.tasks.map (lostPkg p.1 p.2)) ∧
    rlookup (expireBadManagers st now).1.ready_managers mid = none ∧
    mid ∉ (expireBadManagers st now).1.interesting := by
  have hmem : (mid, m) ∈
      st.ready_managers.filter (fun p => badPred now st.heartbeat_threshold p.2) :=
    List.mem_filter.mpr ⟨h1, h2⟩
  have hmap : mid ∈
      (st.ready_managers.filter (fun p => badPred now st.heartbeat_threshold p.2)).map
        Prod.fst :=
    List.mem_map.mpr ⟨(mid, m), hmem, rfl⟩
  exact ⟨expireBadFold_results _ now st,
    (expireBadFold_removes _ now st mid hmap).1,
    (expireBadFold_removes _ now st mid hmap).2⟩

/-- Witness for C5: at time 100 the manager that last heartbeated at 0
(threshold 30) is expired with failure packages for its two tasks. -/
theorem bad_manager_expiry_w :
    (expireBadManagers wStateBad 100).2.results =
      (wStateBad.ready_managers.filter
        (fun p => badPred 100 wStateBad.heartbeat_threshold p.2)).flatMap
        (fun p => p.2.tasks.map (lostPkg p.1 p.2)) ∧
    rlookup (expireBadManagers wStateBad 100).1.ready_managers "m1" = none ∧
    "m1" ∉ (expireBadManagers wStateBad 100).1.interesting :=
  bad_manager_expiry wStateBad 100 "m1" wRecBusy (by decide) (by decide)

/-- C9 (amended): an introspection command never changes the state, and
repeating it returns an equal reply provided additionally the clock has
not advanced; the four commands other than `MANAGERS` are moreover
time-independent (`MANAGERS` embeds
`idle_duration = now - idle_since`). -/
theorem command_idempotence (st : IXState) (t1 t2 : Int) (c : String)
    (hc : c = "CONNECTED_BLOCKS" ∨ c = "WORKERS" ∨ c = "MANAGERS" ∨
      c = "MANAGERS_PACKAGES" ∨ c = "WORKER_BINDS") :
    (processCommand st t1 c).2.1 = st ∧
    (t1 = t2 → (processCommand st t1 c).1 = (processCommand st t2 c).1) ∧
    (c ≠ "MANAGERS" → (processCommand st t1 c).1 = (processCommand st t2 c).1) := by
  rcases hc with rfl | rfl | rfl | rfl | rfl
  · exact ⟨rfl, fun ht => by rw [ht], fun _ => rfl⟩
  · exact ⟨rfl, fun ht => by rw [ht], fun _ => rfl⟩
  · exact ⟨rfl, fun ht => by rw [ht], fun hne => absurd rfl hne⟩
  · exact ⟨rfl, fun ht => by rw [ht], fun _ => rfl⟩
  · exact ⟨rfl, fun ht => by rw [ht], fun _ => rfl⟩

/-- C9 counterexample: the claim as stated is false — issuing `MANAGERS`
twice with no intervening change to the registry, the queue or the
block history (the command itself changes nothing) still returns
different replies when the clock has advanced, because the reply
contains `idle_duration = now - idle_since`. -/
theorem command_idempotence_cex :
    (processCommand wState 1 "MANAGERS").2.1 = wState ∧
    (processCommand wState 2 "MANAGERS").2.1 = wState ∧
    (processCommand wState 1 "MANAGERS").1 ≠ (processCommand wState 2 "MANAGERS").1 := by
  decide

/-- Witness for the amended C9 at the `WORKERS` command. -/
theorem command_idempotence_w :
    (processCommand wState 1 "WORKERS").2.1 = wState ∧
    ((1 : Int) = 2 → (processCommand wState 1 "WORKERS").1 =
      (processCommand wState 2 "WORKERS").1) ∧
    ("WORKERS" ≠ "MANAGERS" → (processCommand wState 1 "WORKERS").1 =
      (processCommand wState 2 "WORKERS").1) :=
  command_idempotence wState 1 2 "WORKERS" (Or.inr (Or.inl rfl))

end Interchange
